import Mathlib

/-!
Verification of the textproc streaming text-processing library.

The Go library transmits, per stage, all data on a data channel, closes it,
then transmits exactly one error on an error channel (nil = success).
A stage's observable behaviour is therefore a function from
(complete data sequence, terminal status) to (complete data sequence,
terminal status); we embed every stage as such a function.
-/

/-- Terminal status errors. `invalidUTF8` models `ErrInvalidUTF8`;
`other` models any other non-nil upstream error. The clean end is `Option.none`
of `Option GoError`. -/
inductive GoError where
  | invalidUTF8 : GoError
  | other : Nat → GoError
deriving DecidableEq, Repr

/-- A rune stream with its single terminal status: all data, then one status. -/
abbrev RuneStream := List Char × Option GoError

/-- A token stream with its single terminal status. -/
abbrev TokenStream := List (List Char) × Option GoError

/-- Models Go `unicode.IsSpace`: the Unicode White_Space property table
(0x09–0x0D, 0x20, 0x85, 0xA0, 0x1680, 0x2000–0x200A, 0x2028, 0x2029,
0x202F, 0x205F, 0x3000). -/
def goIsSpace (c : Char) : Bool :=
  (0x09 ≤ c.toNat && c.toNat ≤ 0x0D) || c.toNat == 0x20 || c.toNat == 0x85 ||
  c.toNat == 0xA0 || c.toNat == 0x1680 ||
  (0x2000 ≤ c.toNat && c.toNat ≤ 0x200A) || c.toNat == 0x2028 ||
  c.toNat == 0x2029 || c.toNat == 0x202F || c.toNat == 0x205F ||
  c.toNat == 0x3000

/-- Models Go `unicode.ToLower` (simple case mapping) on the code points used
in this development: ASCII letters are mapped to lower case; code points
without a simple lowercase mapping (digits, punctuation, symbols, emoji,
whitespace) are returned unchanged. -/
def goToLower (c : Char) : Char :=
  if 'A' ≤ c && c ≤ 'Z' then Char.ofNat (c.toNat + 32) else c

/-- The loop body of `ConvertLineTerminatorsToLF`: the Boolean is the
`skipNextLF` state ("just turned a CR into LF"). -/
def convertLFRunes (skipNextLF : Bool) : List Char → List Char
  | [] => []
  | r :: rs =>
    if skipNextLF && r == '\n' then convertLFRunes false rs
    else if r == '\r' then '\n' :: convertLFRunes true rs
    else r :: convertLFRunes false rs

/-- `ConvertLineTerminatorsToLF` converts "\r" and "\r\n" to "\n";
the error channel is forwarded unchanged. -/
def ConvertLineTerminatorsToLF (s : RuneStream) : RuneStream :=
  (convertLFRunes false s.1, s.2)

/-- `EnsureFinalLFIfNonEmpty`: track the last rune seen (initially '\n');
on a clean status append '\n' if the last rune was not '\n'. -/
def EnsureFinalLFIfNonEmpty (s : RuneStream) : RuneStream :=
  if s.2 = none ∧ s.1.getLastD '\n' ≠ '\n' then (s.1 ++ ['\n'], s.2) else s

/-- The loop body of `TrimLFTrailingWhiteSpace`: `spaces` is the buffered run
of whitespace. On '\n' the buffer is discarded; on other whitespace the rune
is buffered; on a non-whitespace rune the buffer is flushed, then the rune.
When the data ends the buffer is discarded. -/
def trimLFTWSRunes (spaces : List Char) : List Char → List Char
  | [] => []
  | r :: rs =>
    if r == '\n' then r :: trimLFTWSRunes [] rs
    else if goIsSpace r then trimLFTWSRunes (spaces ++ [r]) rs
    else spaces ++ r :: trimLFTWSRunes [] rs

/-- `TrimLFTrailingWhiteSpace` removes white space at the end of LF lines;
the error channel is forwarded unchanged. -/
def TrimLFTrailingWhiteSpace (s : RuneStream) : RuneStream :=
  (trimLFTWSRunes [] s.1, s.2)

/-- The loop body of `TrimLeadingEmptyLFLines` (state `skipping = true`):
discard '\n' runes until the first other rune. -/
def trimLeadingLFRunes : List Char → List Char
  | [] => []
  | r :: rs => if r == '\n' then trimLeadingLFRunes rs else r :: rs

/-- `TrimLeadingEmptyLFLines` removes empty lines at the start of the input;
the error channel is forwarded unchanged. -/
def TrimLeadingEmptyLFLines (s : RuneStream) : RuneStream :=
  (trimLeadingLFRunes s.1, s.2)

/-- The loop body of `TrimTrailingEmptyLFLines`: at line start, '\n' runes are
only counted; on any other rune the pending newlines are flushed first.
A pending run when the data ends is discarded. -/
def trimTrailingLFRunes (atLineStart : Bool) (pendingNewlines : Nat) :
    List Char → List Char
  | [] => []
  | r :: rs =>
    if atLineStart && r == '\n' then
      trimTrailingLFRunes atLineStart (pendingNewlines + 1) rs
    else
      List.replicate pendingNewlines '\n' ++
        r :: trimTrailingLFRunes (r == '\n') 0 rs

/-- `TrimTrailingEmptyLFLines` removes empty lines at the end of the input;
the error channel is forwarded unchanged. -/
def TrimTrailingEmptyLFLines (s : RuneStream) : RuneStream :=
  (trimTrailingLFRunes true 0 s.1, s.2)

/-- The loop of `ReadLFLineContent`: `crt` is the current partial line.
Returns the tokens emitted inside the loop and the final partial line. -/
def readLFLineTokens (crt : List Char) :
    List Char → List (List Char) × List Char
  | [] => ([], crt)
  | r :: rs =>
    if r == '\n' then
      let p := readLFLineTokens [] rs
      (crt :: p.1, p.2)
    else readLFLineTokens (crt ++ [r]) rs

/-- `ReadLFLineContent` reads the content of each LF line, excluding the
terminator. After the loop, the partial line is emitted only when the status
is clean and the partial line is non-empty. -/
def ReadLFLineContent (s : RuneStream) : TokenStream :=
  let p := readLFLineTokens [] s.1
  (p.1 ++ (if s.2 = none ∧ p.2 ≠ [] then [p.2] else []), s.2)

/-- The loop of `ReadLFParagraphContent` over line tokens: `par` is the
current partial paragraph. Non-empty lines are appended to `par` (joined by
'\n'); an empty line emits the paragraph if non-empty. Returns the emitted
paragraphs and the final partial paragraph. -/
def readLFParTokens (par : List Char) :
    List (List Char) → List (List Char) × List Char
  | [] => ([], par)
  | line :: ls =>
    if line ≠ [] then
      readLFParTokens (if par ≠ [] then par ++ '\n' :: line else line) ls
    else if par ≠ [] then
      let p := readLFParTokens [] ls
      (par :: p.1, p.2)
    else readLFParTokens [] ls

/-- `ReadLFParagraphContent` reads the content of each paragraph (adjacent
non-empty lines joined by '\n') from the line tokens of `ReadLFLineContent`.
After the loop, the partial paragraph is emitted only when the status is
clean and the partial paragraph is non-empty. -/
def ReadLFParagraphContent (s : RuneStream) : TokenStream :=
  let lp := ReadLFLineContent s
  let p := readLFParTokens [] lp.1
  (p.1 ++ (if lp.2 = none ∧ p.2 ≠ [] then [p.2] else []), lp.2)

/-- Lexicographic strict order on rune sequences by code point, which is how
Go compares the lowercase key strings (byte order on valid UTF-8 agrees with
code point order). -/
def ltStr : List Char → List Char → Bool
  | [], [] => false
  | [], _ :: _ => true
  | _ :: _, [] => false
  | a :: as, b :: bs =>
    if a.toNat < b.toNat then true
    else if b.toNat < a.toNat then false
    else ltStr as bs

/-- The lowercase projection of a token (`getTokenLowercaseT`). -/
def lowercaseString (t : List Char) : List Char := t.map goToLower

/-- The sort relation used by `sortTokensI` on (token, lowercase) pairs:
`a` may come no later than `b` iff `b`'s key is not smaller than `a`'s,
matching `sort.SliceStable` with `less i j = lowercase i < lowercase j`. -/
def tokenLE (a b : List Char × List Char) : Prop := ltStr b.2 a.2 = false

instance : DecidableRel tokenLE := fun _ _ => instDecidableEqBool _ _

/-- `sortTokensI`: pair each token with its lowercase projection (computed
once), stable-sort by the projection, and project the tokens back out.
`sort.SliceStable` is modelled by insertion sort, which computes the same
(unique) stable sorting. -/
def sortTokensI (tokens : List (List Char)) : List (List Char) :=
  ((tokens.map fun t => (t, lowercaseString t)).insertionSort tokenLE).map
    Prod.fst

/-- The emission loop of `SortLFLinesI`: each line followed by one '\n'. -/
def emitLines : List (List Char) → List Char
  | [] => []
  | line :: ls => line ++ '\n' :: emitLines ls

/-- `SortLFLinesI` collects all line contents via `ReadLFLineContent`, sorts
them case-insensitively, and emits each followed by "\n". The error channel
of the tokenizer is forwarded unchanged and is not consulted for emission. -/
def SortLFLinesI (s : RuneStream) : RuneStream :=
  let lp := ReadLFLineContent s
  (emitLines (sortTokensI lp.1), lp.2)

/-- The emission loop of `SortLFParagraphsI`: a '\n' separator before every
paragraph except the first, each paragraph followed by one '\n'. -/
def emitParagraphs (isFirst : Bool) : List (List Char) → List Char
  | [] => []
  | par :: ps =>
    (if isFirst then [] else ['\n']) ++ par ++ '\n' :: emitParagraphs false ps

/-- `SortLFParagraphsI` collects all paragraph contents via
`ReadLFParagraphContent`, sorts them case-insensitively, joins them with
"\n\n" and adds "\n" after the last. The error channel of the tokenizer is
forwarded unchanged and is not consulted for emission. -/
def SortLFParagraphsI (s : RuneStream) : RuneStream :=
  let pp := ReadLFParagraphContent s
  (emitParagraphs true (sortTokensI pp.1), pp.2)

/-- A continuation byte, `0x80 ≤ b ≤ 0xBF` (Go `utf8` accept range
`locb..hicb`). -/
def isCont (b : Nat) : Bool := decide (0x80 ≤ b) && decide (b ≤ 0xBF)

/-- The accepted range of the second byte given the first byte, Go
`utf8.acceptRanges`: 0xE0 → [0xA0,0xBF], 0xED → [0x80,0x9F],
0xF0 → [0x90,0xBF], 0xF4 → [0x80,0x8F], otherwise a continuation byte. -/
def accept2nd (b0 b1 : Nat) : Bool :=
  if b0 = 0xE0 then decide (0xA0 ≤ b1) && decide (b1 ≤ 0xBF)
  else if b0 = 0xED then decide (0x80 ≤ b1) && decide (b1 ≤ 0x9F)
  else if b0 = 0xF0 then decide (0x90 ≤ b1) && decide (b1 ≤ 0xBF)
  else if b0 = 0xF4 then decide (0x80 ≤ b1) && decide (b1 ≤ 0x8F)
  else isCont b1

/-- Models `bufio.Reader.ReadRune` / `utf8.DecodeRune` on the byte list
`b0 :: bs`: decode one rune, returning (rune, size, remaining bytes).
A malformed sequence yields the replacement rune 0xFFFD with size 1 and
consumes one byte. -/
def decodeRune (b0 : Nat) (bs : List Nat) : Nat × Nat × List Nat :=
  if b0 < 0x80 then (b0, 1, bs)
  else if b0 < 0xC2 then (0xFFFD, 1, bs)
  else if b0 ≤ 0xDF then
    match bs with
    | b1 :: rest =>
      if isCont b1 then ((b0 - 0xC0) * 0x40 + (b1 - 0x80), 2, rest)
      else (0xFFFD, 1, bs)
    | [] => (0xFFFD, 1, bs)
  else if b0 ≤ 0xEF then
    match bs with
    | b1 :: b2 :: rest =>
      if accept2nd b0 b1 && isCont b2 then
        ((b0 - 0xE0) * 0x1000 + (b1 - 0x80) * 0x40 + (b2 - 0x80), 3, rest)
      else (0xFFFD, 1, bs)
    | _ => (0xFFFD, 1, bs)
  else if b0 ≤ 0xF4 then
    match bs with
    | b1 :: b2 :: b3 :: rest =>
      if accept2nd b0 b1 && isCont b2 && isCont b3 then
        ((b0 - 0xF0) * 0x40000 + (b1 - 0x80) * 0x1000 +
          (b2 - 0x80) * 0x40 + (b3 - 0x80), 4, rest)
      else (0xFFFD, 1, bs)
    | _ => (0xFFFD, 1, bs)
  else (0xFFFD, 1, bs)

/-- Go `utf8.EncodeRune` for a valid code point (UTF-8 encoding). -/
def utf8EncodeChar (c : Char) : List Nat :=
  if c.toNat < 0x80 then [c.toNat]
  else if c.toNat < 0x800 then
    [0xC0 + c.toNat / 0x40, 0x80 + c.toNat % 0x40]
  else if c.toNat < 0x10000 then
    [0xE0 + c.toNat / 0x1000, 0x80 + c.toNat / 0x40 % 0x40,
     0x80 + c.toNat % 0x40]
  else
    [0xF0 + c.toNat / 0x40000, 0x80 + c.toNat / 0x1000 % 0x40,
     0x80 + c.toNat / 0x40 % 0x40, 0x80 + c.toNat % 0x40]

/-- UTF-8 encoding of a rune sequence. -/
def utf8Encode (cs : List Char) : List Nat :=
  (cs.map utf8EncodeChar).flatten

/-- `runeErrorSize = len(string(utf8.RuneError))`. -/
def runeErrorSize : Nat := (utf8EncodeChar (Char.ofNat 0xFFFD)).length

/-- The result of one `readRune` call: end of input, a failure, or a rune
plus the remaining bytes. -/
inductive ReadRuneResult where
  | eof : ReadRuneResult
  | failed : GoError → ReadRuneResult
  | ok : Nat → List Nat → ReadRuneResult
deriving DecidableEq, Repr

/-- Go `readRune`: read one rune; report `ErrInvalidUTF8` when the decoder
returned the replacement rune from a sequence whose size differs from the
encoded size of the replacement rune. On empty input, `io.EOF`. -/
def readRune : List Nat → ReadRuneResult
  | [] => .eof
  | b :: bs =>
    let d := decodeRune b bs
    if d.1 = 0xFFFD ∧ d.2.1 ≠ runeErrorSize then .failed .invalidUTF8
    else .ok d.1 d.2.2

theorem decodeRune_rest_length (b0 : Nat) (bs : List Nat) :
    (decodeRune b0 bs).2.2.length ≤ bs.length := by
  match bs with
  | [] => simp only [decodeRune]; split_ifs <;> simp
  | [b1] => simp only [decodeRune]; split_ifs <;> simp
  | [b1, b2] => simp only [decodeRune]; split_ifs <;> simp
  | b1 :: b2 :: b3 :: rest =>
    simp only [decodeRune]; split_ifs <;> simp <;> omega

theorem readRune_rest_length {bs : List Nat} {r : Nat} {rest : List Nat}
    (h : readRune bs = .ok r rest) : rest.length < bs.length := by
  match bs with
  | [] => simp [readRune] at h
  | b :: bs =>
    simp only [readRune] at h
    by_cases hc : (decodeRune b bs).1 = 0xFFFD ∧
        (decodeRune b bs).2.1 ≠ runeErrorSize
    · rw [if_pos hc] at h; simp at h
    · rw [if_neg hc] at h
      cases h
      have := decodeRune_rest_length b bs
      simpa using Nat.lt_succ_of_le this

/-- `ReadRunes` reads the runes from the byte input, converting `io.EOF` to
the clean status and stopping at the first failure. -/
def ReadRunes (bs : List Nat) : RuneStream :=
  match h : readRune bs with
  | .eof => ([], none)
  | .failed e => ([], some e)
  | .ok r rest =>
    let p := ReadRunes rest
    (Char.ofNat r :: p.1, p.2)
termination_by bs.length
decreasing_by exact readRune_rest_length h

/-- The "norm" catalogue chain from the command-line program:
`chainRuneProcessors` applied to the keys `lf`, `trail`, `trimlf`, `nelf`,
where `trimlf` chains `TrimLeadingEmptyLFLines` then
`TrimTrailingEmptyLFLines`. -/
def normChain (s : RuneStream) : RuneStream :=
  EnsureFinalLFIfNonEmpty
    (TrimTrailingEmptyLFLines
      (TrimLeadingEmptyLFLines
        (TrimLFTrailingWhiteSpace
          (ConvertLineTerminatorsToLF s))))

/-! ## Specification-side definitions

These follow the spec's words, for stating refinement properties; they are
deliberately distinct from the loop-shaped definitions above. -/

/-- Spec-side: the segments of a rune sequence split on '\n'; a sequence with
`n` newlines has `n + 1` segments (the last is the non-terminated tail,
possibly empty). -/
def specLineSegments : List Char → List (List Char)
  | [] => [[]]
  | c :: rs =>
    if c = '\n' then [] :: specLineSegments rs
    else
      match specLineSegments rs with
      | [] => [[c]]
      | s :: ss => (c :: s) :: ss

/-- Spec-side: the line contents at a clean end of stream: the content of
every terminated line, plus the non-terminated tail when it is non-empty. -/
def specCleanLines (rs : List Char) : List (List Char) :=
  (specLineSegments rs).dropLast ++
    (if (specLineSegments rs).getLastD [] ≠ [] then
      [(specLineSegments rs).getLastD []] else [])

/-- Spec-side: the line contents when the stream ends in a failure: only the
content of terminated lines; the partial line in flight is discarded. -/
def specFailLines (rs : List Char) : List (List Char) :=
  (specLineSegments rs).dropLast

/-- Spec-side: the groups of a line list split on empty lines; the last group
is the paragraph still in flight (possibly empty). -/
def specLineGroups : List (List Char) → List (List (List Char))
  | [] => [[]]
  | l :: ls =>
    if l = [] then [] :: specLineGroups ls
    else
      match specLineGroups ls with
      | [] => [[l]]
      | g :: gs => (l :: g) :: gs

/-- Spec-side: the lines of a paragraph joined by a single LF. -/
def specJoinLF : List (List Char) → List Char
  | [] => []
  | [l] => l
  | l :: l' :: ls => l ++ '\n' :: specJoinLF (l' :: ls)

/-- Spec-side: paragraph contents at a clean end of stream: every group of
adjacent non-empty lines, each joined by a single LF. -/
def specCleanParagraphs (rs : List Char) : List (List Char) :=
  ((specLineGroups (specCleanLines rs)).map specJoinLF).filter (· ≠ [])

/-- Spec-side: paragraph contents when the stream ends in a failure: only the
paragraphs closed by an empty line before the failure; the paragraph in
flight is discarded. -/
def specFailParagraphs (rs : List Char) : List (List Char) :=
  (((specLineGroups (specFailLines rs)).map specJoinLF).dropLast).filter
    (· ≠ [])

/-- Spec-side: lines re-emitted with one LF after each. -/
def specEmitLines (ts : List (List Char)) : List Char :=
  (ts.map (· ++ ['\n'])).flatten

/-- Spec-side: paragraphs joined by a blank line (two LFs) between
consecutive paragraphs, with exactly one trailing LF after the last;
empty output for zero paragraphs. -/
def specJoinParagraphs : List (List Char) → List Char
  | [] => []
  | [p] => p ++ ['\n']
  | p :: p' :: ps => p ++ '\n' :: '\n' :: specJoinParagraphs (p' :: ps)

/-- Spec-side: the key order for the case-insensitive sort: `a` precedes or
equals `b` when `b`'s lowercase projection is not smaller than `a`'s. -/
def lineKeyLE (a b : List Char) : Prop :=
  ltStr (lowercaseString b) (lowercaseString a) = false

/-- Spec-side: `s` is the stable sort of `l` by the lowercase projection:
it is sorted for the key order and, for every key, the elements with that
key appear exactly as they do in `l` (equal keys preserve original relative
order; in particular `s` is a permutation of `l`). -/
def IsStableSortByLowercase (l s : List (List Char)) : Prop :=
  s.Sorted lineKeyLE ∧
    ∀ k, s.filter (fun t => lowercaseString t == k) =
      l.filter (fun t => lowercaseString t == k)

/-- Spec-side: a byte list that starts with the valid UTF-8 encoding of some
code point. -/
def ValidSeqStart (bs : List Nat) : Prop :=
  ∃ (c : Char) (rest : List Nat), bs = utf8EncodeChar c ++ rest

/-! ## C7: idempotence of the line-terminator conversion and of the
final-LF enforcement -/

theorem convertLFRunes_cr_not_mem (b : Bool) (rs : List Char) :
    '\r' ∉ convertLFRunes b rs := by
  induction rs generalizing b with
  | nil => simp [convertLFRunes]
  | cons r rs ih =>
    simp only [convertLFRunes]
    split_ifs with h1 h2
    · exact ih false
    · simp only [List.mem_cons, not_or]
      exact ⟨by decide, ih true⟩
    · simp only [List.mem_cons, not_or]
      refine ⟨?_, ih false⟩
      intro hr
      simp [← hr] at h2
    
theorem convertLFRunes_eq_self_of_cr_not_mem (rs : List Char)
    (h : '\r' ∉ rs) : convertLFRunes false rs = rs := by
  induction rs with
  | nil => rfl
  | cons r rs ih =>
    simp only [List.mem_cons, not_or] at h
    simp only [convertLFRunes, Bool.false_and, Bool.false_eq_true, if_false]
    rw [if_neg, ih h.2]
    simp [Ne.symm h.1]

/-- C7: `ConvertLineTerminatorsToLF` and `EnsureFinalLFIfNonEmpty` are each
idempotent on every input stream, data and terminal status alike. -/
theorem convert_ensure_idempotent (s : RuneStream) :
    ConvertLineTerminatorsToLF (ConvertLineTerminatorsToLF s) =
      ConvertLineTerminatorsToLF s ∧
    EnsureFinalLFIfNonEmpty (EnsureFinalLFIfNonEmpty s) =
      EnsureFinalLFIfNonEmpty s := by
  constructor
  · unfold ConvertLineTerminatorsToLF
    exact congrArg (·, s.2)
      (convertLFRunes_eq_self_of_cr_not_mem _ (convertLFRunes_cr_not_mem _ _))
  · by_cases h : s.2 = none ∧ s.1.getLastD '\n' ≠ '\n'
    · unfold EnsureFinalLFIfNonEmpty
      rw [if_pos h]
      rw [if_neg]
      simp [List.getLastD_concat]
    · unfold EnsureFinalLFIfNonEmpty
      rw [if_neg h, if_neg h]

/-! ## C9: the "norm" chain on whitespace-only input -/

/-- C9: the "norm" composite chain (`lf`, `trail`, `trimlf`, `nelf` in that
order) maps the input " \t" with clean status to empty output with clean
status: whitespace-only input stays empty and no final LF is appended. -/
theorem normChain_space_tab :
    normChain ([' ', '\t'], none) = ([], none) := by decide

/-! ## C8: `TrimLFTrailingWhiteSpace` -/

theorem goIsSpace_lf : goIsSpace '\n' = true := by decide

theorem trimLFTWSRunes_flush (sp : List Char) (buf : List Char) (r : Char)
    (xs : List Char) (hsp : ∀ c ∈ sp, goIsSpace c = true ∧ c ≠ '\n')
    (hr : goIsSpace r = false) :
    trimLFTWSRunes buf (sp ++ r :: xs) =
      buf ++ sp ++ r :: trimLFTWSRunes [] xs := by
  induction sp generalizing buf with
  | nil =>
    have hrn : r ≠ '\n' := by
      intro h; rw [h] at hr; exact absurd hr (by decide)
    simp only [List.nil_append, trimLFTWSRunes, beq_iff_eq, hr]
    rw [if_neg hrn, if_neg (by simp [hr]), List.append_nil]
  | cons c sp ih =>
    have hc := hsp c (List.mem_cons_self c sp)
    simp only [List.cons_append, trimLFTWSRunes, List.append_eq]
    rw [if_neg (by simp [hc.2]), if_pos hc.1,
      ih (buf ++ [c]) (fun x hx => hsp x (List.mem_cons_of_mem c hx))]
    simp

theorem trimLFTWSRunes_idem (rs : List Char) (sp : List Char)
    (hsp : ∀ c ∈ sp, goIsSpace c = true ∧ c ≠ '\n') :
    trimLFTWSRunes [] (trimLFTWSRunes sp rs) = trimLFTWSRunes sp rs := by
  induction rs generalizing sp with
  | nil => simp [trimLFTWSRunes]
  | cons r rs ih =>
    by_cases hn : r = '\n'
    · subst hn
      simp only [trimLFTWSRunes, beq_self_eq_true, if_true, if_pos rfl]
      exact congrArg _ (ih [] (by simp))
    · by_cases hs : goIsSpace r = true
      · simp only [trimLFTWSRunes]
        rw [if_neg (by simp [hn]), if_pos hs,
          ih (sp ++ [r]) (by
            intro c hc
            rcases List.mem_append.mp hc with h | h
            · exact hsp c h
            · simp only [List.mem_singleton] at h
              exact h ▸ ⟨hs, hn⟩)]
      · simp only [trimLFTWSRunes]
        rw [if_neg (by simp [hn]), if_neg hs,
          trimLFTWSRunes_flush sp [] r _ hsp (by simpa using hs),
          List.nil_append, ih [] (by simp)]

/-- The amended no-trailing-whitespace shape: a whitespace rune immediately
preceding an LF is itself an LF. -/
def noSpaceBeforeLF (a b : Char) : Prop :=
  b = '\n' → a = '\n' ∨ goIsSpace a = false

theorem chain'_noSpaceBeforeLF_of_no_lf (l : List Char)
    (h : ∀ c ∈ l, c ≠ '\n') : List.Chain' noSpaceBeforeLF l := by
  induction l with
  | nil => exact List.chain'_nil
  | cons a l ih =>
    rw [List.chain'_cons']
    refine ⟨?_, ih fun c hc => h c (List.mem_cons_of_mem a hc)⟩
    intro y hy hylf
    exfalso
    rcases l with _ | ⟨b, l⟩
    · simp at hy
    · simp only [List.head?_cons, Option.mem_some_iff] at hy
      exact h b (by simp) (hy ▸ hylf)

theorem trimLFTWSRunes_chain' (rs : List Char) (sp : List Char)
    (hsp : ∀ c ∈ sp, goIsSpace c = true ∧ c ≠ '\n') :
    List.Chain' noSpaceBeforeLF (trimLFTWSRunes sp rs) := by
  induction rs generalizing sp with
  | nil => simp [trimLFTWSRunes]
  | cons r rs ih =>
    by_cases hn : r = '\n'
    · subst hn
      simp only [trimLFTWSRunes, beq_self_eq_true, if_true, if_pos rfl]
      rw [List.chain'_cons']
      exact ⟨fun y _ _ => Or.inl rfl, ih [] (by simp)⟩
    · by_cases hs : goIsSpace r = true
      · simp only [trimLFTWSRunes]
        rw [if_neg (by simp [hn]), if_pos hs]
        refine ih (sp ++ [r]) ?_
        intro c hc
        rcases List.mem_append.mp hc with h | h
        · exact hsp c h
        · simp only [List.mem_singleton] at h
          exact h ▸ ⟨hs, hn⟩
      · simp only [trimLFTWSRunes]
        rw [if_neg (by simp [hn]), if_neg hs]
        rw [List.chain'_append]
        refine ⟨chain'_noSpaceBeforeLF_of_no_lf sp fun c hc => (hsp c hc).2,
          ?_, ?_⟩
        · rw [List.chain'_cons']
          refine ⟨fun y _ _ => Or.inr (by simpa using hs), ih [] (by simp)⟩
        · intro x _ y hy
          simp only [List.head?_cons, Option.mem_some_iff] at hy
          intro hylf
          exact absurd (hy ▸ hylf :) hn

/-- C8 (amended): `TrimLFTrailingWhiteSpace` is idempotent on every input
stream, and in its output any whitespace rune immediately preceding an LF is
itself an LF (no non-LF whitespace run precedes an LF). -/
theorem trimLFTrailingWhiteSpace_idem_and_shape (s : RuneStream) :
    TrimLFTrailingWhiteSpace (TrimLFTrailingWhiteSpace s) =
      TrimLFTrailingWhiteSpace s ∧
    List.Chain' noSpaceBeforeLF (TrimLFTrailingWhiteSpace s).1 := by
  unfold TrimLFTrailingWhiteSpace
  exact ⟨congrArg (·, s.2) (trimLFTWSRunes_idem s.1 [] (by simp)),
    trimLFTWSRunes_chain' s.1 [] (by simp)⟩

/-- C8 counterexample: the claim "no run of Unicode-whitespace runes
immediately precedes an LF in the output" is false as stated: on the clean
input "a\n\n" the output is "a\n\n", where the whitespace rune '\n'
immediately precedes an LF. -/
theorem trimLFTrailingWhiteSpace_claim_counterexample :
    (TrimLFTrailingWhiteSpace (['a', '\n', '\n'], none)).1 =
      ['a', '\n', '\n'] ∧
    ¬ List.Chain' (fun a b => b = '\n' → goIsSpace a = false)
      (TrimLFTrailingWhiteSpace (['a', '\n', '\n'], none)).1 := by
  constructor
  · decide
  · intro h
    have h2 := (List.chain'_cons.mp (List.chain'_cons.mp h).2).1
    exact absurd (h2 rfl) (by decide)

/-! ## C3: the line and paragraph tokenizers -/

theorem specLineSegments_ne_nil (rs : List Char) : specLineSegments rs ≠ [] := by
  cases rs with
  | nil => simp [specLineSegments]
  | cons c rs =>
    simp only [specLineSegments]
    split_ifs
    · simp
    · match h : specLineSegments rs with
      | [] => simp
      | s :: ss => simp

theorem getLastD_congr {α : Type} (l : List α) (d d' : α) (h : l ≠ []) :
    l.getLastD d = l.getLastD d' := by
  cases l with
  | nil => exact absurd rfl h
  | cons a l => rw [List.getLastD_cons, List.getLastD_cons]

theorem modifyHead_nil_append (ls : List (List Char)) :
    ls.modifyHead (fun s => [] ++ s) = ls := by
  cases ls with
  | nil => rfl
  | cons a ls => rw [List.modifyHead_cons]; simp

theorem readLFLineTokens_eq (rs : List Char) (crt : List Char) :
    readLFLineTokens crt rs =
      (((specLineSegments rs).modifyHead (crt ++ ·)).dropLast,
       ((specLineSegments rs).modifyHead (crt ++ ·)).getLastD []) := by
  induction rs generalizing crt with
  | nil => simp [readLFLineTokens, specLineSegments]
  | cons r rs ih =>
    by_cases hn : r = '\n'
    · subst hn
      simp only [readLFLineTokens, beq_self_eq_true, if_true, if_pos rfl,
        specLineSegments, List.modifyHead_cons, List.append_nil]
      rw [ih []]
      have hS := specLineSegments_ne_nil rs
      rw [modifyHead_nil_append, List.dropLast_cons_of_ne_nil hS,
        List.getLastD_cons, getLastD_congr _ crt [] hS]
    · simp only [readLFLineTokens, specLineSegments]
      rw [if_neg (by simp [hn]), if_neg hn, ih (crt ++ [r])]
      match h : specLineSegments rs with
      | [] => exact absurd h (specLineSegments_ne_nil rs)
      | s :: ss =>
        simp only [List.modifyHead_cons]
        rw [← List.append_cons]

theorem ReadLFLineContent_clean (rs : List Char) :
    ReadLFLineContent (rs, none) = (specCleanLines rs, none) := by
  unfold ReadLFLineContent specCleanLines
  rw [readLFLineTokens_eq rs [], modifyHead_nil_append]
  simp

theorem ReadLFLineContent_fail (rs : List Char) (f : GoError) :
    ReadLFLineContent (rs, some f) = (specFailLines rs, some f) := by
  unfold ReadLFLineContent specFailLines
  rw [readLFLineTokens_eq rs [], modifyHead_nil_append]
  simp

theorem specLineGroups_ne_nil (ls : List (List Char)) :
    specLineGroups ls ≠ [] := by
  cases ls with
  | nil => simp [specLineGroups]
  | cons l ls =>
    simp only [specLineGroups]
    split_ifs
    · simp
    · match h : specLineGroups ls with
      | [] => simp
      | g :: gs => simp

theorem specLineGroups_lines_ne_nil (ls : List (List Char)) :
    ∀ g ∈ specLineGroups ls, ∀ l ∈ g, l ≠ [] := by
  induction ls with
  | nil =>
    intro g hg
    simp only [specLineGroups, List.mem_singleton] at hg
    simp [hg]
  | cons l ls ih =>
    intro g hg
    simp only [specLineGroups] at hg
    split_ifs at hg with hl
    · rcases List.mem_cons.mp hg with h | h
      · simp [h]
      · exact ih g h
    · match h : specLineGroups ls with
      | [] => exact absurd h (specLineGroups_ne_nil ls)
      | g' :: gs =>
        rw [h] at hg
        rcases List.mem_cons.mp hg with h2 | h2
        · subst h2
          intro x hx
          rcases List.mem_cons.mp hx with h3 | h3
          · exact h3 ▸ hl
          · exact ih g' (h ▸ List.mem_cons_self g' gs) x h3
        · exact ih g (h ▸ List.mem_cons_of_mem g' h2)

/-- The step joining the next line to the paragraph in flight, as written in
the loop of `ReadLFParagraphContent`. -/
def stepJoin (par line : List Char) : List Char :=
  if par ≠ [] then par ++ '\n' :: line else line

/-- The list of joined groups with the paragraph in flight `par` joined into
the first group. -/
def parJoinList (par : List Char) (ls : List (List Char)) :
    List (List Char) :=
  match specLineGroups ls with
  | [] => []
  | g :: gs => g.foldl stepJoin par :: gs.map specJoinLF

theorem specJoinLF_cons_cons (p l : List Char) (g : List (List Char)) :
    specJoinLF ((p ++ '\n' :: l) :: g) = p ++ '\n' :: specJoinLF (l :: g) := by
  cases g with
  | nil => rfl
  | cons l2 g => simp [specJoinLF, List.append_assoc]

theorem foldl_stepJoin (g : List (List Char)) (p : List Char) (hp : p ≠ []) :
    g.foldl stepJoin p = specJoinLF (p :: g) := by
  induction g generalizing p with
  | nil => rfl
  | cons l g ih =>
    rw [List.foldl_cons]
    have hstep : stepJoin p l = p ++ '\n' :: l := if_pos hp
    rw [hstep, ih (p ++ '\n' :: l) (by simp), specJoinLF_cons_cons]
    rfl

theorem parJoinList_nil (ls : List (List Char)) :
    parJoinList [] ls = (specLineGroups ls).map specJoinLF := by
  unfold parJoinList
  match h : specLineGroups ls with
  | [] => exact absurd h (specLineGroups_ne_nil ls)
  | g :: gs =>
    simp only [List.map_cons]
    congr 1
    cases g with
    | nil => rfl
    | cons l g' =>
      have hl : l ≠ [] :=
        specLineGroups_lines_ne_nil ls (l :: g')
          (h ▸ List.mem_cons_self _ _) l (List.mem_cons_self l g')
      rw [List.foldl_cons]
      have : stepJoin [] l = l := if_neg (by simp)
      rw [this, foldl_stepJoin g' l hl]

theorem readLFParTokens_eq (ls : List (List Char)) (par : List Char) :
    readLFParTokens par ls =
      ((parJoinList par ls).dropLast.filter (· ≠ []),
       (parJoinList par ls).getLastD []) := by
  induction ls generalizing par with
  | nil => simp [readLFParTokens, parJoinList, specLineGroups]
  | cons l ls ih =>
    by_cases hl : l = []
    · subst hl
      have hG := specLineGroups_ne_nil ls
      have hM : (specLineGroups ls).map specJoinLF ≠ [] := by
        simpa using hG
      have hPJ : parJoinList par ([] :: ls) =
          par :: (specLineGroups ls).map specJoinLF := by
        unfold parJoinList
        simp only [specLineGroups, if_pos rfl]
        match h : specLineGroups ls with
        | [] => exact absurd h hG
        | g :: gs => simp
      have hunfold : readLFParTokens par ([] :: ls) =
          if par ≠ [] then
            (par :: (readLFParTokens [] ls).1, (readLFParTokens [] ls).2)
          else readLFParTokens [] ls := by
        simp only [readLFParTokens]
        rw [if_neg (show ¬(([] : List Char) ≠ []) by simp)]
      rw [hunfold, hPJ, List.dropLast_cons_of_ne_nil hM, List.getLastD_cons,
        getLastD_congr _ par [] hM, List.filter_cons, ih [], parJoinList_nil]
      by_cases hpar : par = []
      · subst hpar
        rw [if_neg (by simp), if_neg (by simp)]
      · rw [if_pos hpar, if_pos (by simpa using hpar)]
    · have hunfold : readLFParTokens par (l :: ls) =
          readLFParTokens (stepJoin par l) ls := by
        simp only [readLFParTokens, stepJoin]
        rw [if_pos hl]
      have hPJ : parJoinList par (l :: ls) =
          parJoinList (stepJoin par l) ls := by
        unfold parJoinList
        simp only [specLineGroups, if_neg hl]
        match h : specLineGroups ls with
        | [] => exact absurd h (specLineGroups_ne_nil ls)
        | g :: gs => rfl
      rw [hunfold, hPJ, ih (stepJoin par l)]

theorem filter_dropLast_getLastD (M : List (List Char)) (h : M ≠ []) :
    M.dropLast.filter (· ≠ []) ++
      (if M.getLastD [] ≠ [] then [M.getLastD []] else []) =
    M.filter (· ≠ []) := by
  induction M with
  | nil => exact absurd rfl h
  | cons x M ih =>
    cases M with
    | nil => by_cases hx : x = [] <;> simp [hx, List.filter_cons]
    | cons y M =>
      have hM : (y :: M : List (List Char)) ≠ [] := by simp
      rw [List.dropLast_cons_of_ne_nil hM, List.getLastD_cons,
        getLastD_congr _ x [] hM, List.filter_cons, List.filter_cons]
      by_cases hx : x = []
      · rw [if_neg (show ¬(decide (x ≠ []) = true) by simp [hx]),
          if_neg (show ¬(decide (x ≠ []) = true) by simp [hx])]
        exact ih hM
      · rw [if_pos (show decide (x ≠ []) = true by simp [hx]),
          if_pos (show decide (x ≠ []) = true by simp [hx]),
          List.cons_append, ih hM]

theorem ReadLFParagraphContent_clean (rs : List Char) :
    ReadLFParagraphContent (rs, none) = (specCleanParagraphs rs, none) := by
  have hM : (specLineGroups (specCleanLines rs)).map specJoinLF ≠ [] := by
    simpa using specLineGroups_ne_nil (specCleanLines rs)
  simp only [ReadLFParagraphContent]
  rw [ReadLFLineContent_clean rs]
  simp only [readLFParTokens_eq _ [], parJoinList_nil]
  unfold specCleanParagraphs
  rw [← filter_dropLast_getLastD _ hM]
  simp

theorem ReadLFParagraphContent_fail (rs : List Char) (f : GoError) :
    ReadLFParagraphContent (rs, some f) =
      (specFailParagraphs rs, some f) := by
  simp only [ReadLFParagraphContent]
  rw [ReadLFLineContent_fail rs f]
  simp only [readLFParTokens_eq _ [], parJoinList_nil]
  unfold specFailParagraphs
  simp

/-- C3: the tokenizers emit a non-terminated trailing line/paragraph as a
final token exactly at a clean end of stream: with a clean status the tokens
are all terminated lines plus the non-empty tail (all groups of adjacent
non-empty lines for paragraphs); with a failure status the partial
line/paragraph in flight is discarded while all tokens completed before the
failure are emitted. -/
theorem tokenizers_tail_asymmetry (rs : List Char) (f : GoError) :
    ReadLFLineContent (rs, none) = (specCleanLines rs, none) ∧
    ReadLFLineContent (rs, some f) = (specFailLines rs, some f) ∧
    ReadLFParagraphContent (rs, none) = (specCleanParagraphs rs, none) ∧
    ReadLFParagraphContent (rs, some f) = (specFailParagraphs rs, some f) :=
  ⟨ReadLFLineContent_clean rs, ReadLFLineContent_fail rs f,
    ReadLFParagraphContent_clean rs, ReadLFParagraphContent_fail rs f⟩

/-! ## C1: the sort stages on a failing stream -/

theorem emitLines_eq_spec (ts : List (List Char)) :
    emitLines ts = specEmitLines ts := by
  induction ts with
  | nil => rfl
  | cons t ts ih => simp [emitLines, specEmitLines, ih]
  
theorem emitParagraphs_false_eq (ps : List (List Char)) :
    emitParagraphs false ps =
      (if ps = [] then [] else '\n' :: specJoinParagraphs ps) := by
  induction ps with
  | nil => rfl
  | cons p ps ih =>
    rw [if_neg (List.cons_ne_nil p ps)]
    cases ps with
    | nil => simp [emitParagraphs, specJoinParagraphs]
    | cons q qs =>
      have h1 : emitParagraphs false (p :: q :: qs) =
          ['\n'] ++ p ++ '\n' :: emitParagraphs false (q :: qs) := rfl
      rw [h1, ih, if_neg (List.cons_ne_nil q qs)]
      simp [specJoinParagraphs]

theorem emitParagraphs_eq_spec (ps : List (List Char)) :
    emitParagraphs true ps = specJoinParagraphs ps := by
  cases ps with
  | nil => rfl
  | cons p ps =>
    have h1 : emitParagraphs true (p :: ps) =
        p ++ '\n' :: emitParagraphs false ps := rfl
    rw [h1, emitParagraphs_false_eq]
    cases ps with
    | nil => simp [specJoinParagraphs]
    | cons q qs =>
      rw [if_neg (List.cons_ne_nil q qs)]
      simp [specJoinParagraphs]

theorem char_toNat_inj {c d : Char} (h : c.toNat = d.toNat) : c = d := by
  have := congrArg Char.ofNat h
  simpa [Char.ofNat_toNat] using this

theorem ltStr_irrefl (a : List Char) : ltStr a a = false := by
  induction a with
  | nil => rfl
  | cons c a ih => simp [ltStr, ih]

theorem ltStr_asymm (a b : List Char) (h : ltStr a b = true) :
    ltStr b a = false := by
  induction a generalizing b with
  | nil =>
    cases b with
    | nil => simp [ltStr] at h
    | cons d b => rfl
  | cons c a ih =>
    cases b with
    | nil => simp [ltStr] at h
    | cons d b =>
      simp only [ltStr] at h ⊢
      rcases Nat.lt_trichotomy c.toNat d.toNat with hcd | hcd | hcd
      · rw [if_neg (by omega), if_pos hcd]
      · rw [if_neg (by omega), if_neg (by omega)]
        rw [if_neg (by omega), if_neg (by omega)] at h
        exact ih b h
      · rw [if_neg (by omega), if_pos hcd] at h
        exact absurd h (by simp)

theorem ltStr_trans (a b c : List Char) (hab : ltStr a b = true)
    (hbc : ltStr b c = true) : ltStr a c = true := by
  induction a generalizing b c with
  | nil =>
    cases c with
    | nil =>
      cases b with
      | nil => exact hab
      | cons e b => simp [ltStr] at hbc
    | cons f c => rfl
  | cons d a ih =>
    cases b with
    | nil => simp [ltStr] at hab
    | cons e b =>
      cases c with
      | nil => simp [ltStr] at hbc
      | cons f c =>
        simp only [ltStr] at hab hbc ⊢
        rcases Nat.lt_trichotomy d.toNat e.toNat with h1 | h1 | h1 <;>
          rcases Nat.lt_trichotomy e.toNat f.toNat with h2 | h2 | h2
        · rw [if_pos (by omega)]
        · rw [if_pos (by omega)]
        · rw [if_neg (by omega), if_pos h2] at hbc
          exact absurd hbc (by simp)
        · rw [if_pos (by omega)]
        · rw [if_neg (by omega), if_neg (by omega)]
          rw [if_neg (by omega), if_neg (by omega)] at hab hbc
          exact ih b c hab hbc
        · rw [if_neg (by omega), if_pos h2] at hbc
          exact absurd hbc (by simp)
        · rw [if_neg (by omega), if_pos h1] at hab
          exact absurd hab (by simp)
        · rw [if_neg (by omega), if_pos h1] at hab
          exact absurd hab (by simp)
        · rw [if_neg (by omega), if_pos h1] at hab
          exact absurd hab (by simp)

theorem ltStr_conn (a b : List Char) (hab : ltStr a b = false)
    (hba : ltStr b a = false) : a = b := by
  induction a generalizing b with
  | nil =>
    cases b with
    | nil => rfl
    | cons d b => simp [ltStr] at hab
  | cons c a ih =>
    cases b with
    | nil => simp [ltStr] at hba
    | cons d b =>
      simp only [ltStr] at hab hba
      rcases Nat.lt_trichotomy c.toNat d.toNat with h1 | h1 | h1
      · rw [if_pos h1] at hab
        exact absurd hab (by simp)
      · rw [if_neg (by omega), if_neg (by omega)] at hab hba
        rw [char_toNat_inj h1, ih b hab hba]
      · rw [if_pos h1] at hba
        exact absurd hba (by simp)

instance : IsTrans (List Char × List Char) tokenLE where
  trans a b c hab hbc := by
    unfold tokenLE at hab hbc ⊢
    by_cases hbc' : ltStr b.2 c.2 = true
    · cases hca : ltStr c.2 a.2 with
      | false => rfl
      | true => exact absurd (ltStr_trans b.2 c.2 a.2 hbc' hca) (by simp [hab])
    · have hb : ltStr b.2 c.2 = false := by
        cases h : ltStr b.2 c.2
        · rfl
        · exact absurd h hbc'
      rw [← ltStr_conn b.2 c.2 hb hbc]
      exact hab

instance : IsTotal (List Char × List Char) tokenLE where
  total a b := by
    unfold tokenLE
    cases h : ltStr b.2 a.2 with
    | false => exact Or.inl rfl
    | true => exact Or.inr (ltStr_asymm b.2 a.2 h)

theorem filter_map_comm {α β : Type} (f : α → β) (pb : β → Bool)
    (l : List α) :
    (l.map f).filter pb = (l.filter (fun a => pb (f a))).map f := by
  induction l with
  | nil => rfl
  | cons a l ih => by_cases h : pb (f a) <;> simp [h, ih]

theorem tokenPairs_snd_eq (tokens : List (List Char)) (p : List Char × List Char)
    (hp : p ∈ tokens.map fun t => (t, lowercaseString t)) :
    p.2 = lowercaseString p.1 := by
  rcases List.mem_map.mp hp with ⟨t, _, rfl⟩
  rfl

theorem sortTokensI_sorted (tokens : List (List Char)) :
    (sortTokensI tokens).Sorted lineKeyLE := by
  unfold sortTokensI
  set P := tokens.map fun t => (t, lowercaseString t) with hP
  have hsorted : (P.insertionSort tokenLE).Sorted tokenLE :=
    List.sorted_insertionSort tokenLE P
  have hmem : ∀ p ∈ P.insertionSort tokenLE, p.2 = lowercaseString p.1 :=
    fun p hp =>
      tokenPairs_snd_eq tokens p ((List.perm_insertionSort tokenLE P).mem_iff.mp hp)
  refine List.pairwise_map.mpr ?_
  refine List.Pairwise.imp_of_mem ?_ hsorted
  intro a b ha hb hab
  unfold tokenLE at hab
  unfold lineKeyLE
  rw [← hmem a ha, ← hmem b hb]
  exact hab

theorem sortTokensI_filter (tokens : List (List Char)) (k : List Char) :
    (sortTokensI tokens).filter (fun t => lowercaseString t == k) =
      tokens.filter (fun t => lowercaseString t == k) := by
  unfold sortTokensI
  set P := tokens.map fun t => (t, lowercaseString t) with hP
  set S := P.insertionSort tokenLE with hS
  have hmemP : ∀ p ∈ P, p.2 = lowercaseString p.1 := tokenPairs_snd_eq tokens
  have hmemS : ∀ p ∈ S, p.2 = lowercaseString p.1 :=
    fun p hp =>
      hmemP p ((List.perm_insertionSort tokenLE P).mem_iff.mp hp)
  -- The equal-key elements, in their original order.
  set A := P.filter (fun p => p.2 == k) with hA
  have hApw : A.Pairwise tokenLE := by
    refine List.pairwise_of_forall_mem_list ?_
    intro a ha b hb
    have ha2 : a.2 = k := by
      simpa using (List.mem_filter.mp ha).2
    have hb2 : b.2 = k := by
      simpa using (List.mem_filter.mp hb).2
    unfold tokenLE
    rw [ha2, hb2]
    exact ltStr_irrefl k
  have hAsub : List.Sublist A S := List.sublist_insertionSort hApw (List.filter_sublist P)
  have hAfull : A.filter (fun p => p.2 == k) = A :=
    List.filter_eq_self.mpr fun p hp => (List.mem_filter.mp hp).2
  have hsub2 : List.Sublist A (S.filter (fun p => p.2 == k)) := by
    have := List.Sublist.filter (fun p => p.2 == k) hAsub
    rwa [hAfull] at this
  have hperm : List.Perm (S.filter (fun p => p.2 == k)) A :=
    (List.perm_insertionSort tokenLE P).filter _
  have hfeq : S.filter (fun p => p.2 == k) = A :=
    (hsub2.eq_of_length hperm.length_eq.symm).symm
  have hcongS : ∀ p ∈ S, (lowercaseString p.1 == k) = (p.2 == k) := by
    intro p hp
    rw [hmemS p hp]
  have hcongP : ∀ p ∈ P, (lowercaseString p.1 == k) = (p.2 == k) := by
    intro p hp
    rw [hmemP p hp]
  have hfst : Prod.fst ∘ (fun t : List Char => (t, lowercaseString t)) =
      id := rfl
  calc (S.map Prod.fst).filter (fun t => lowercaseString t == k)
      = (S.filter (fun p => lowercaseString p.1 == k)).map Prod.fst :=
        filter_map_comm Prod.fst (fun t => lowercaseString t == k) S
    _ = (S.filter (fun p => p.2 == k)).map Prod.fst := by
        rw [List.filter_congr hcongS]
    _ = A.map Prod.fst := by rw [hfeq]
    _ = (P.filter (fun p => lowercaseString p.1 == k)).map Prod.fst := by
        rw [hA, List.filter_congr hcongP]
    _ = (P.map Prod.fst).filter (fun t => lowercaseString t == k) :=
        (filter_map_comm Prod.fst (fun t => lowercaseString t == k) P).symm
    _ = tokens.filter (fun t => lowercaseString t == k) := by
        rw [hP, List.map_map, hfst, List.map_id]

theorem sortTokensI_stable (tokens : List (List Char)) :
    IsStableSortByLowercase tokens (sortTokensI tokens) :=
  ⟨sortTokensI_sorted tokens, sortTokensI_filter tokens⟩

theorem char_toNat_ofNat {n : Nat} (h : n.isValidChar) :
    (Char.ofNat n).toNat = n := by
  unfold Char.ofNat
  rw [dif_pos h]
  rfl

theorem runeErrorSize_eq : runeErrorSize = 3 := by decide

theorem isCont_intro {b : Nat} (h1 : 0x80 ≤ b) (h2 : b ≤ 0xBF) :
    isCont b = true := by
  simp only [isCont, Bool.and_eq_true, decide_eq_true_eq]
  omega

theorem isCont_elim {b : Nat} (h : isCont b = true) : 0x80 ≤ b ∧ b ≤ 0xBF := by
  simpa only [isCont, Bool.and_eq_true, decide_eq_true_eq] using h

theorem decodeRune_1byte {b0 : Nat} (bs : List Nat) (h : b0 < 0x80) :
    decodeRune b0 bs = (b0, 1, bs) := by
  unfold decodeRune
  rw [if_pos h]

theorem decodeRune_2byte {b0 b1 : Nat} (rest : List Nat) (h0 : 0xC2 ≤ b0)
    (h0' : b0 ≤ 0xDF) (h1 : isCont b1 = true) :
    decodeRune b0 (b1 :: rest) =
      ((b0 - 0xC0) * 0x40 + (b1 - 0x80), 2, rest) := by
  unfold decodeRune
  rw [if_neg (by omega), if_neg (by omega), if_pos h0']
  simp only [h1, if_true]

theorem decodeRune_3byte {b0 b1 b2 : Nat} (rest : List Nat) (h0 : 0xE0 ≤ b0)
    (h0' : b0 ≤ 0xEF) (h1 : accept2nd b0 b1 = true) (h2 : isCont b2 = true) :
    decodeRune b0 (b1 :: b2 :: rest) =
      ((b0 - 0xE0) * 0x1000 + (b1 - 0x80) * 0x40 + (b2 - 0x80), 3, rest) := by
  unfold decodeRune
  rw [if_neg (by omega), if_neg (by omega), if_neg (by omega), if_pos h0']
  simp only [h1, h2, Bool.and_true, if_true]

theorem decodeRune_4byte {b0 b1 b2 b3 : Nat} (rest : List Nat)
    (h0 : 0xF0 ≤ b0) (h0' : b0 ≤ 0xF4) (h1 : accept2nd b0 b1 = true)
    (h2 : isCont b2 = true) (h3 : isCont b3 = true) :
    decodeRune b0 (b1 :: b2 :: b3 :: rest) =
      ((b0 - 0xF0) * 0x40000 + (b1 - 0x80) * 0x1000 +
        (b2 - 0x80) * 0x40 + (b3 - 0x80), 4, rest) := by
  unfold decodeRune
  rw [if_neg (by omega), if_neg (by omega), if_neg (by omega),
    if_neg (by omega), if_pos h0']
  simp only [h1, h2, h3, Bool.and_true, if_true]

theorem accept2nd_intro3 (n : Nat) (h1 : 0x800 ≤ n) (h2 : n < 0x10000)
    (hs : n < 0xD800 ∨ 0xE000 ≤ n) :
    accept2nd (0xE0 + n / 0x1000) (0x80 + n / 0x40 % 0x40) = true := by
  unfold accept2nd
  split_ifs with hE0 hED hF0 hF4 <;>
    simp only [isCont, Bool.and_eq_true, decide_eq_true_eq] <;> omega

theorem accept2nd_intro4 (n : Nat) (h1 : 0x10000 ≤ n) (h2 : n < 0x110000) :
    accept2nd (0xF0 + n / 0x40000) (0x80 + n / 0x1000 % 0x40) = true := by
  unfold accept2nd
  split_ifs with hE0 hED hF0 hF4 <;>
    simp only [isCont, Bool.and_eq_true, decide_eq_true_eq] <;> omega

theorem readRune_encodeChar (c : Char) (rest : List Nat) :
    readRune (utf8EncodeChar c ++ rest) = .ok c.toNat rest := by
  have hv : c.toNat < 0xD800 ∨ (0xE000 ≤ c.toNat ∧ c.toNat < 0x110000) :=
    c.valid
  by_cases h1 : c.toNat < 0x80
  · have hd : decodeRune c.toNat rest = (c.toNat, 1, rest) :=
      decodeRune_1byte rest h1
    simp only [utf8EncodeChar, if_pos h1, List.cons_append, List.nil_append,
      readRune, hd]
    rw [if_neg (by rintro ⟨hfd, _⟩; omega)]
  · by_cases h2 : c.toNat < 0x800
    · have hd : decodeRune (0xC0 + c.toNat / 0x40)
          ((0x80 + c.toNat % 0x40) :: rest) = (c.toNat, 2, rest) := by
        rw [@decodeRune_2byte (0xC0 + c.toNat / 0x40) (0x80 + c.toNat % 0x40)
          rest (by omega) (by omega) (isCont_intro (by omega) (by omega))]
        have hr : (0xC0 + c.toNat / 0x40 - 0xC0) * 0x40 +
            (0x80 + c.toNat % 0x40 - 0x80) = c.toNat := by omega
        rw [hr]
      simp only [utf8EncodeChar, if_neg h1, if_pos h2, List.cons_append,
        List.nil_append, readRune, hd]
      rw [if_neg (by rintro ⟨hfd, _⟩; omega)]
    · by_cases h3 : c.toNat < 0x10000
      · have hd : decodeRune (0xE0 + c.toNat / 0x1000)
            ((0x80 + c.toNat / 0x40 % 0x40) :: (0x80 + c.toNat % 0x40) ::
              rest) = (c.toNat, 3, rest) := by
          rw [@decodeRune_3byte (0xE0 + c.toNat / 0x1000)
            (0x80 + c.toNat / 0x40 % 0x40) (0x80 + c.toNat % 0x40) rest
            (by omega) (by omega)
            (accept2nd_intro3 c.toNat (by omega) h3 (by omega))
            (isCont_intro (by omega) (by omega))]
          have hr : (0xE0 + c.toNat / 0x1000 - 0xE0) * 0x1000 +
              (0x80 + c.toNat / 0x40 % 0x40 - 0x80) * 0x40 +
              (0x80 + c.toNat % 0x40 - 0x80) = c.toNat := by omega
          rw [hr]
        simp only [utf8EncodeChar, if_neg h1, if_neg h2, if_pos h3,
          List.cons_append, List.nil_append, readRune, hd]
        rw [if_neg (by rintro ⟨hfd, hsz⟩; exact hsz runeErrorSize_eq)]
      · have hd : decodeRune (0xF0 + c.toNat / 0x40000)
            ((0x80 + c.toNat / 0x1000 % 0x40) ::
              (0x80 + c.toNat / 0x40 % 0x40) :: (0x80 + c.toNat % 0x40) ::
              rest) = (c.toNat, 4, rest) := by
          rw [@decodeRune_4byte (0xF0 + c.toNat / 0x40000)
            (0x80 + c.toNat / 0x1000 % 0x40) (0x80 + c.toNat / 0x40 % 0x40)
            (0x80 + c.toNat % 0x40) rest (by omega) (by omega)
            (accept2nd_intro4 c.toNat (by omega) (by omega))
            (isCont_intro (by omega) (by omega))
            (isCont_intro (by omega) (by omega))]
          have hr : (0xF0 + c.toNat / 0x40000 - 0xF0) * 0x40000 +
              (0x80 + c.toNat / 0x1000 % 0x40 - 0x80) * 0x1000 +
              (0x80 + c.toNat / 0x40 % 0x40 - 0x80) * 0x40 +
              (0x80 + c.toNat % 0x40 - 0x80) = c.toNat := by omega
          rw [hr]
        simp only [utf8EncodeChar, if_neg h1, if_neg h2, if_neg h3,
          List.cons_append, List.nil_append, readRune, hd]
        rw [if_neg (by rintro ⟨hfd, _⟩; omega)]

theorem utf8Encode_cons (c : Char) (cs : List Char) :
    utf8Encode (c :: cs) = utf8EncodeChar c ++ utf8Encode cs := by
  simp [utf8Encode]

theorem ReadRunes_encode (cs : List Char) :
    ReadRunes (utf8Encode cs) = (cs, none) := by
  induction cs with
  | nil => rw [ReadRunes]; rfl
  | cons c cs ih =>
    rw [utf8Encode_cons, ReadRunes]
    rw [readRune_encodeChar c (utf8Encode cs)]
    simp [ih, Char.ofNat_toNat]

theorem exists_char_toNat (n : Nat)
    (hv : n < 0xD800 ∨ (0xE000 ≤ n ∧ n < 0x110000)) :
    ∃ c : Char, c.toNat = n :=
  ⟨Char.ofNat n, char_toNat_ofNat hv⟩

theorem utf8EncodeChar_of_toNat_eq {c : Char} {n : Nat} (hc : c.toNat = n) :
    utf8EncodeChar c =
      if n < 0x80 then [n]
      else if n < 0x800 then [0xC0 + n / 0x40, 0x80 + n % 0x40]
      else if n < 0x10000 then
        [0xE0 + n / 0x1000, 0x80 + n / 0x40 % 0x40, 0x80 + n % 0x40]
      else
        [0xF0 + n / 0x40000, 0x80 + n / 0x1000 % 0x40,
         0x80 + n / 0x40 % 0x40, 0x80 + n % 0x40] := by
  unfold utf8EncodeChar
  rw [hc]

theorem decodeRune_valid_inv (b : Nat) (bs : List Nat)
    (h : ¬((decodeRune b bs).1 = 0xFFFD ∧
      (decodeRune b bs).2.1 ≠ runeErrorSize)) :
    ∃ c : Char, c.toNat = (decodeRune b bs).1 ∧
      b :: bs = utf8EncodeChar c ++ (decodeRune b bs).2.2 := by
  have herr : ∀ (r : Nat × Nat × List Nat), decodeRune b bs = r →
      r.1 = 0xFFFD → r.2.1 = 1 → False := by
    intro r hr h1 h2
    exact h (by rw [hr, h1, h2, runeErrorSize_eq]; exact ⟨rfl, by omega⟩)
  by_cases h1 : b < 0x80
  · have hd := decodeRune_1byte bs h1
    rw [hd]
    obtain ⟨c, hc⟩ := exists_char_toNat b (by omega)
    refine ⟨c, hc, ?_⟩
    rw [utf8EncodeChar_of_toNat_eq hc, if_pos h1]
    rfl
  · by_cases h2 : b < 0xC2
    · have hd : decodeRune b bs = (0xFFFD, 1, bs) := by
        unfold decodeRune
        rw [if_neg h1, if_pos h2]
      exact (herr _ hd rfl rfl).elim
    · by_cases h3 : b ≤ 0xDF
      · match bs with
        | [] =>
          have hd : decodeRune b [] = (0xFFFD, 1, []) := by
            unfold decodeRune
            rw [if_neg h1, if_neg h2, if_pos h3]
          exact (herr _ hd rfl rfl).elim
        | b1 :: rest =>
          by_cases hc1 : isCont b1 = true
          · have hd := decodeRune_2byte rest (by omega) h3 hc1
            rw [hd]
            have hb1 := isCont_elim hc1
            obtain ⟨c, hc⟩ := exists_char_toNat
              ((b - 0xC0) * 0x40 + (b1 - 0x80)) (by omega)
            refine ⟨c, hc, ?_⟩
            rw [utf8EncodeChar_of_toNat_eq hc, if_neg (by omega),
              if_pos (by omega)]
            have e0 : 0xC0 + ((b - 0xC0) * 0x40 + (b1 - 0x80)) / 0x40 = b :=
              by omega
            have e1 : 0x80 + ((b - 0xC0) * 0x40 + (b1 - 0x80)) % 0x40 = b1 :=
              by omega
            rw [e0, e1]
            rfl
          · have hd : decodeRune b (b1 :: rest) = (0xFFFD, 1, b1 :: rest) := by
              unfold decodeRune
              rw [if_neg h1, if_neg h2, if_pos h3]
              simp only [hc1, if_false, Bool.false_eq_true]
            exact (herr _ hd rfl rfl).elim
      · by_cases h4 : b ≤ 0xEF
        · match bs with
          | [] =>
            have hd : decodeRune b [] = (0xFFFD, 1, []) := by
              unfold decodeRune
              rw [if_neg h1, if_neg h2, if_neg h3, if_pos h4]
            exact (herr _ hd rfl rfl).elim
          | [b1] =>
            have hd : decodeRune b [b1] = (0xFFFD, 1, [b1]) := by
              unfold decodeRune
              rw [if_neg h1, if_neg h2, if_neg h3, if_pos h4]
            exact (herr _ hd rfl rfl).elim
          | b1 :: b2 :: rest =>
            by_cases hacc : accept2nd b b1 = true ∧ isCont b2 = true
            · have hd := decodeRune_3byte rest (by omega) h4 hacc.1 hacc.2
              rw [hd]
              have hb2 := isCont_elim hacc.2
              have hb1 : 0x80 ≤ b1 ∧ b1 ≤ 0xBF ∧ (b = 0xE0 → 0xA0 ≤ b1) ∧
                  (b = 0xED → b1 ≤ 0x9F) := by
                have hacc1 := hacc.1
                unfold accept2nd at hacc1
                split_ifs at hacc1 with hE0 hED hF0 hF4 <;>
                  simp only [isCont, Bool.and_eq_true,
                    decide_eq_true_eq] at hacc1 <;> omega
              obtain ⟨c, hc⟩ := exists_char_toNat
                ((b - 0xE0) * 0x1000 + (b1 - 0x80) * 0x40 + (b2 - 0x80))
                (by omega)
              refine ⟨c, hc, ?_⟩
              rw [utf8EncodeChar_of_toNat_eq hc, if_neg (by omega),
                if_neg (by omega), if_pos (by omega)]
              have e0 : 0xE0 + ((b - 0xE0) * 0x1000 + (b1 - 0x80) * 0x40 +
                  (b2 - 0x80)) / 0x1000 = b := by omega
              have e1 : 0x80 + ((b - 0xE0) * 0x1000 + (b1 - 0x80) * 0x40 +
                  (b2 - 0x80)) / 0x40 % 0x40 = b1 := by omega
              have e2 : 0x80 + ((b - 0xE0) * 0x1000 + (b1 - 0x80) * 0x40 +
                  (b2 - 0x80)) % 0x40 = b2 := by omega
              rw [e0, e1, e2]
              rfl
            · have hd : decodeRune b (b1 :: b2 :: rest) =
                  (0xFFFD, 1, b1 :: b2 :: rest) := by
                unfold decodeRune
                rw [if_neg h1, if_neg h2, if_neg h3, if_pos h4]
                have hfalse : (accept2nd b b1 && isCont b2) = false := by
                  cases hval : (accept2nd b b1 && isCont b2) with
                  | false => rfl
                  | true =>
                    rw [Bool.and_eq_true] at hval
                    exact absurd hval hacc
                simp only [hfalse, if_false, Bool.false_eq_true]
              exact (herr _ hd rfl rfl).elim
        · by_cases h5 : b ≤ 0xF4
          · match bs with
            | [] =>
              have hd : decodeRune b [] = (0xFFFD, 1, []) := by
                unfold decodeRune
                rw [if_neg h1, if_neg h2, if_neg h3, if_neg h4, if_pos h5]
              exact (herr _ hd rfl rfl).elim
            | [b1] =>
              have hd : decodeRune b [b1] = (0xFFFD, 1, [b1]) := by
                unfold decodeRune
                rw [if_neg h1, if_neg h2, if_neg h3, if_neg h4, if_pos h5]
              exact (herr _ hd rfl rfl).elim
            | [b1, b2] =>
              have hd : decodeRune b [b1, b2] = (0xFFFD, 1, [b1, b2]) := by
                unfold decodeRune
                rw [if_neg h1, if_neg h2, if_neg h3, if_neg h4, if_pos h5]
              exact (herr _ hd rfl rfl).elim
            | b1 :: b2 :: b3 :: rest =>
              by_cases hacc : accept2nd b b1 = true ∧ isCont b2 = true ∧
                  isCont b3 = true
              · have hd := decodeRune_4byte rest (by omega) h5 hacc.1
                  hacc.2.1 hacc.2.2
                rw [hd]
                have hb2 := isCont_elim hacc.2.1
                have hb3 := isCont_elim hacc.2.2
                have hb1 : 0x80 ≤ b1 ∧ b1 ≤ 0xBF ∧ (b = 0xF0 → 0x90 ≤ b1) ∧
                    (b = 0xF4 → b1 ≤ 0x8F) := by
                  have hacc1 := hacc.1
                  unfold accept2nd at hacc1
                  split_ifs at hacc1 with hE0 hED hF0 hF4 <;>
                    simp only [isCont, Bool.and_eq_true,
                      decide_eq_true_eq] at hacc1 <;> omega
                obtain ⟨c, hc⟩ := exists_char_toNat
                  ((b - 0xF0) * 0x40000 + (b1 - 0x80) * 0x1000 +
                    (b2 - 0x80) * 0x40 + (b3 - 0x80)) (by omega)
                refine ⟨c, hc, ?_⟩
                rw [utf8EncodeChar_of_toNat_eq hc, if_neg (by omega),
                  if_neg (by omega), if_neg (by omega)]
                have e0 : 0xF0 + ((b - 0xF0) * 0x40000 +
                    (b1 - 0x80) * 0x1000 + (b2 - 0x80) * 0x40 +
                    (b3 - 0x80)) / 0x40000 = b := by omega
                have e1 : 0x80 + ((b - 0xF0) * 0x40000 +
                    (b1 - 0x80) * 0x1000 + (b2 - 0x80) * 0x40 +
                    (b3 - 0x80)) / 0x1000 % 0x40 = b1 := by omega
                have e2 : 0x80 + ((b - 0xF0) * 0x40000 +
                    (b1 - 0x80) * 0x1000 + (b2 - 0x80) * 0x40 +
                    (b3 - 0x80)) / 0x40 % 0x40 = b2 := by omega
                have e3 : 0x80 + ((b - 0xF0) * 0x40000 +
                    (b1 - 0x80) * 0x1000 + (b2 - 0x80) * 0x40 +
                    (b3 - 0x80)) % 0x40 = b3 := by omega
                rw [e0, e1, e2, e3]
                rfl
              · have hd : decodeRune b (b1 :: b2 :: b3 :: rest) =
                    (0xFFFD, 1, b1 :: b2 :: b3 :: rest) := by
                  unfold decodeRune
                  rw [if_neg h1, if_neg h2, if_neg h3, if_neg h4, if_pos h5]
                  have hfalse : (accept2nd b b1 && isCont b2 && isCont b3) =
                      false := by
                    cases hval : (accept2nd b b1 && isCont b2 && isCont b3)
                      with
                    | false => rfl
                    | true =>
                      rw [Bool.and_eq_true, Bool.and_eq_true] at hval
                      exact absurd ⟨hval.1.1, hval.1.2, hval.2⟩ hacc
                  simp only [hfalse, if_false, Bool.false_eq_true]
                exact (herr _ hd rfl rfl).elim
          · have hd : decodeRune b bs = (0xFFFD, 1, bs) := by
              unfold decodeRune
              rw [if_neg h1, if_neg h2, if_neg h3, if_neg h4, if_neg h5]
            exact (herr _ hd rfl rfl).elim

theorem readRune_ok_inv {bs : List Nat} {r : Nat} {rest : List Nat}
    (h : readRune bs = .ok r rest) :
    ∃ c : Char, c.toNat = r ∧ bs = utf8EncodeChar c ++ rest := by
  match bs with
  | [] => simp [readRune] at h
  | b :: bs' =>
    simp only [readRune] at h
    by_cases hc : (decodeRune b bs').1 = 0xFFFD ∧
        (decodeRune b bs').2.1 ≠ runeErrorSize
    · rw [if_pos hc] at h
      simp at h
    · rw [if_neg hc] at h
      obtain ⟨c, hc1, hc2⟩ := decodeRune_valid_inv b bs' hc
      cases h
      exact ⟨c, hc1, hc2⟩

theorem readRune_bad {b : Nat} {bs : List Nat}
    (hbad : ¬ ValidSeqStart (b :: bs)) :
    readRune (b :: bs) = .failed .invalidUTF8 := by
  simp only [readRune]
  by_cases hc : (decodeRune b bs).1 = 0xFFFD ∧
      (decodeRune b bs).2.1 ≠ runeErrorSize
  · rw [if_pos hc]
  · obtain ⟨c, _, hc2⟩ := decodeRune_valid_inv b bs hc
    exact absurd ⟨c, (decodeRune b bs).2.2, hc2⟩ hbad

theorem ReadRunes_encode_fail (cs : List Char) (rest : List Nat)
    (hne : rest ≠ []) (hbad : ¬ ValidSeqStart rest) :
    ReadRunes (utf8Encode cs ++ rest) = (cs, some .invalidUTF8) := by
  induction cs with
  | nil =>
    match rest, hne, hbad with
    | b :: bs, _, hbad =>
      rw [show utf8Encode [] ++ b :: bs = b :: bs from rfl, ReadRunes,
        readRune_bad hbad]
  | cons c cs ih =>
    rw [utf8Encode_cons, List.append_assoc, ReadRunes,
      readRune_encodeChar c (utf8Encode cs ++ rest)]
    simp [ih, Char.ofNat_toNat]

theorem validSeqStart_first_byte {b : Nat} {bs : List Nat}
    (h : ValidSeqStart (b :: bs)) : b < 0x80 ∨ 0xC2 ≤ b := by
  obtain ⟨c, rest, he⟩ := h
  have hv : c.toNat < 0xD800 ∨ (0xE000 ≤ c.toNat ∧ c.toNat < 0x110000) :=
    c.valid
  unfold utf8EncodeChar at he
  split_ifs at he with h1 h2 h3 <;>
    simp only [List.cons_append, List.nil_append, List.cons.injEq] at he <;>
    omega

theorem not_validSeqStart_80 : ¬ ValidSeqStart [0x80, 0x61] := by
  intro h
  rcases validSeqStart_first_byte h with h1 | h1 <;> omega

/-- C2: `ReadRunes` emits exactly the runes decoded from the valid UTF-8
prefix of the input: a fully valid input yields all its runes and the clean
status; an input whose first malformed sequence starts right after the valid
prefix yields exactly the runes of that prefix, then the `ErrInvalidUTF8`
status and no further runes. -/
theorem readRunes_decode_semantics :
    (∀ cs : List Char, ReadRunes (utf8Encode cs) = (cs, none)) ∧
    (∀ (cs : List Char) (rest : List Nat), rest ≠ [] →
      ¬ ValidSeqStart rest →
      ReadRunes (utf8Encode cs ++ rest) = (cs, some .invalidUTF8)) :=
  ⟨ReadRunes_encode, ReadRunes_encode_fail⟩

/-- C2 witness: the byte input "=•" followed by the stray continuation byte
0x80 and "a" yields exactly the two valid runes then `ErrInvalidUTF8`, and a
fully valid input yields all runes with the clean status. -/
theorem readRunes_decode_semantics_witness :
    ReadRunes (utf8Encode ['=', '•'] ++ [0x80, 0x61]) =
      (['=', '•'], some .invalidUTF8) ∧
    ReadRunes (utf8Encode ['a']) = (['a'], none) :=
  ⟨readRunes_decode_semantics.2 ['=', '•'] [0x80, 0x61] (by decide)
      not_validSeqStart_80,
    readRunes_decode_semantics.1 ['a']⟩

/-- C10: a genuine U+FFFD in valid UTF-8 input (its normal 3-byte form) is
emitted as an ordinary rune without failing, and `readRune` reports
`ErrInvalidUTF8` exactly when the decoder returned the replacement rune from
a sequence whose size differs from the encoded size of U+FFFD. -/
theorem readRunes_replacement_char_ok :
    (∀ cs : List Char, Char.ofNat 0xFFFD ∈ cs →
      ReadRunes (utf8Encode cs) = (cs, none)) ∧
    (∀ (b : Nat) (bs : List Nat),
      readRune (b :: bs) = .failed .invalidUTF8 ↔
        ((decodeRune b bs).1 = 0xFFFD ∧
          (decodeRune b bs).2.1 ≠ runeErrorSize)) := by
  constructor
  · intro cs _
    exact ReadRunes_encode cs
  · intro b bs
    simp only [readRune]
    by_cases hc : (decodeRune b bs).1 = 0xFFFD ∧
        (decodeRune b bs).2.1 ≠ runeErrorSize
    · rw [if_pos hc]
      exact ⟨fun _ => hc, fun _ => rfl⟩
    · rw [if_neg hc]
      exact ⟨fun h => by simp at h, fun h => absurd h hc⟩

/-- C10 witness: the input "@", U+FFFD, TAB is decoded unchanged with the
clean status. -/
theorem readRunes_replacement_char_ok_witness :
    ReadRunes (utf8Encode ['@', Char.ofNat 0xFFFD, '\t']) =
      (['@', Char.ofNat 0xFFFD, '\t'], none) :=
  readRunes_replacement_char_ok.1 ['@', Char.ofNat 0xFFFD, '\t'] (by decide)
